import Mathlib

/-!
Verification of the release-doc updater
(`scripts/update_function_docs/update_function_docs.go`).

File contents are modelled as `List Char` (the Go code operates on byte
slices of ASCII documentation text).  Each Go regular expression used with
`ReplaceAll` or `MatchString` is embedded as a deterministic scanner that
mirrors RE2's leftmost-first matching semantics for that concrete pattern
(all the patterns involved are deterministic: every starred class is
followed by a character outside the class, and alternatives are tried in
written order).
-/

instance exceptDecEq {ε α : Type} [DecidableEq ε] [DecidableEq α] :
    DecidableEq (Except ε α) := fun x y =>
  match x, y with
  | .error a, .error b =>
    if h : a = b then isTrue (by rw [h]) else isFalse (by simp [h])
  | .error _, .ok _ => isFalse (by simp)
  | .ok _, .error _ => isFalse (by simp)
  | .ok a, .ok b =>
    if h : a = b then isTrue (by rw [h]) else isFalse (by simp [h])

/-- `\d` of Go regexp: ASCII digits. -/
def isDigitChar (c : Char) : Bool := '0' ≤ c && c ≤ '9'

/-- the class `[-\w]` of Go regexp: word characters or a hyphen. -/
def isWordDash (c : Char) : Bool :=
  c = '-' || c = '_' || isDigitChar c || ('a' ≤ c && c ≤ 'z') || ('A' ≤ c && c ≤ 'Z')

/-- `\s` of Go regexp: `[\t\n\f\r ]`. -/
def isSpaceGo (c : Char) : Bool :=
  c = ' ' || c = '\t' || c = '\n' || c = '\x0C' || c = '\r'

/-- If `p` is a prefix of `s`, return the remainder of `s` after `p`. -/
def stripPrefixL : List Char → List Char → Option (List Char)
  | [], s => some s
  | _ :: _, [] => none
  | p :: ps, c :: cs => if p = c then stripPrefixL ps cs else none

/-- Maximal run of digits at the head of a list together with the rest
(the behaviour of a greedy `\d*` followed by a non-digit requirement). -/
def spanDigits (s : List Char) : List Char × List Char :=
  (s.takeWhile isDigitChar, s.dropWhile isDigitChar)

/-- `strings.Split` on a single separator character. -/
def splitSep (sep : Char) : List Char → List (List Char)
  | [] => [[]]
  | c :: cs =>
    if c = sep then [] :: splitSep sep cs
    else
      match splitSep sep cs with
      | [] => [[c]]
      | l :: ls => (c :: l) :: ls

/-- `strings.Contains s sub`. -/
def containsL (s sub : List Char) : Bool :=
  match s with
  | [] => (stripPrefixL sub []).isSome
  | _ :: cs => (stripPrefixL sub s).isSome || containsL cs sub

/-!
Generic model of `regexp.ReplaceAll` for a deterministic pattern: `try s`
returns `some (replacementText, remainderAfterMatch)` when the pattern
matches at the start of `s`, and the scan looks for the leftmost match,
emits the replacement, and continues after the matched text.  The fuel is
the length of the input: every match consumes at least one character.
-/

def scanReplaceAux (tryM : List Char → Option (List Char × List Char)) :
    Nat → List Char → List Char
  | _, [] => []
  | 0, s => s
  | f + 1, c :: cs =>
    match tryM (c :: cs) with
    | some (rep, r) => rep ++ scanReplaceAux tryM f r
    | none => c :: scanReplaceAux tryM f cs

def scanReplace (tryM : List Char → Option (List Char × List Char))
    (s : List Char) : List Char :=
  scanReplaceAux tryM s.length s

/-!
The version-token group of the source,
`unstable|v\d*\.\d*\.\d*|v\d*\.\d*`, with RE2's alternative order.
-/

def unstableChars : List Char := ['u', 'n', 's', 't', 'a', 'b', 'l', 'e']

/-- Expect a literal `.` at the head and return what follows. -/
def expectDot : List Char → Option (List Char)
  | '.' :: r => some r
  | _ => none

/-- `v\d*\.\d*\.\d*` matched at the head; returns the remainder (each
greedy `\d*` is followed by `\.` or the end of the pattern, so the match
is deterministic). -/
def matchV3 (s : List Char) : Option (List Char) :=
  match s with
  | 'v' :: r0 =>
    match expectDot (spanDigits r0).2 with
    | none => none
    | some r1 =>
      match expectDot (spanDigits r1).2 with
      | none => none
      | some r2 => some (spanDigits r2).2
  | _ => none

/-- `v\d*\.\d*` matched at the head; returns the remainder. -/
def matchV2 (s : List Char) : Option (List Char) :=
  match s with
  | 'v' :: r0 =>
    match expectDot (spanDigits r0).2 with
    | none => none
    | some r1 => some (spanDigits r1).2
  | _ => none

/-- The alternation `unstable|v\d*\.\d*\.\d*|v\d*\.\d*`, alternatives in
written order as RE2 prefers them. -/
def matchVersionToken (s : List Char) : Option (List Char) :=
  match stripPrefixL unstableChars s with
  | some r => some r
  | none =>
    match matchV3 s with
    | some r => some r
    | none => matchV2 s

/-! Data model of the source: `functionExample` and `functionRelease`. -/

structure FunctionExample where
  ExamplePath : List Char
  ExampleName : List Char
deriving DecidableEq

structure FunctionRelease where
  FunctionName : List Char
  MinorVersion : List Char
  Language : List Char
  LatestPatchVersion : List Char
  FunctionPath : List Char
  Examples : List FunctionExample
  IsContrib : Bool
deriving DecidableEq

/-- `functionExamples.exampleNames` of the source. -/
def exampleNames (fe : List FunctionExample) : List (List Char) :=
  fe.map (fun e => e.ExampleName)

/-!
`replaceTags`: pattern `(<fn>)(:|/)(<versionGroup>)`, replacement
`${1}${2}<patch>`.
-/

def tryTagMatch (fn patch : List Char) (s : List Char) :
    Option (List Char × List Char) :=
  match stripPrefixL fn s with
  | none => none
  | some s1 =>
    match s1 with
    | sep :: s2 =>
      if sep = ':' ∨ sep = '/' then
        match matchVersionToken s2 with
        | some r => some (fn ++ sep :: patch, r)
        | none => none
      else none
    | [] => none

def replaceTags (fr : FunctionRelease) (contents : List Char) : List Char :=
  scanReplace (tryTagMatch fr.FunctionName fr.LatestPatchVersion) contents

/-!
`replaceURLs`: pattern `(https://catalog\.kpt\.dev/<fn>/)(<versionGroup>)`,
replacement `${1}<minor>`.
-/

def catalogURL (fn : List Char) : List Char :=
  "https://catalog.kpt.dev/".toList ++ fn ++ ['/']

def tryURLMatch (fn minor : List Char) (s : List Char) :
    Option (List Char × List Char) :=
  match stripPrefixL (catalogURL fn) s with
  | none => none
  | some s1 =>
    match matchVersionToken s1 with
    | some r => some (catalogURL fn ++ minor, r)
    | none => none

def replaceURLs (fr : FunctionRelease) (contents : List Char) : List Char :=
  scanReplace (tryURLMatch fr.FunctionName fr.MinorVersion) contents

/-!
`replaceKptPackages`: pattern
`(https://github\.com/GoogleContainerTools/kpt-functions-catalog\.git/<sub>/)(<n1>|...|<nk>)(\s+)`,
replacement `${1}${2}@<fn>/<patch>${3}`.
-/

def kptPkgBase (isContrib : Bool) : List Char :=
  "https://github.com/GoogleContainerTools/kpt-functions-catalog.git/".toList ++
    (if isContrib then "contrib/examples".toList else "examples".toList) ++ ['/']

/-- First example name (in written alternation order) that is a prefix of
`s` and is followed by at least one whitespace character; returns the name
and the rest of `s` after it. -/
def tryNameList (names : List (List Char)) (s : List Char) :
    Option (List Char × List Char) :=
  match names with
  | [] => none
  | n :: ns =>
    match stripPrefixL n s with
    | some r =>
      match r with
      | c :: _ => if isSpaceGo c then some (n, r) else tryNameList ns s
      | [] => tryNameList ns s
    | none => tryNameList ns s

def tryKptMatch (names : List (List Char)) (fn patch : List Char)
    (isContrib : Bool) (s : List Char) : Option (List Char × List Char) :=
  match stripPrefixL (kptPkgBase isContrib) s with
  | none => none
  | some s1 =>
    match tryNameList names s1 with
    | none => none
    | some (n, r) =>
      let ws := r.takeWhile isSpaceGo
      some (kptPkgBase isContrib ++ n ++ '@' :: fn ++ '/' :: patch ++ ws,
        r.dropWhile isSpaceGo)

def replaceKptPackages (fr : FunctionRelease) (contents : List Char) :
    List Char :=
  let names := exampleNames fr.Examples
  -- `strings.Join` of an empty list is `""`, i.e. a single empty alternative
  let group := if names = [] then [[]] else names
  scanReplace (tryKptMatch group fr.FunctionName fr.LatestPatchVersion fr.IsContrib)
    contents

/-- The content transformation of `updateDoc`: the three substitution rules
in the source's fixed order (tags, then catalog URLs, then example
package references). -/
def updateDocContents (fr : FunctionRelease) (contents : List Char) :
    List Char :=
  replaceKptPackages fr (replaceURLs fr (replaceTags fr contents))

/-!
Model of the semantic-version comparison `golang.org/x/mod/semver.Compare`
used by the source (an external dependency, embedded faithfully: parse a
`v`-prefixed version into major/minor/patch/prerelease/build, compare
numerically componentwise, invalid versions compare below valid ones and
equal to each other).
-/

structure SemverParsed where
  major : List Char
  minor : List Char
  patch : List Char
  prerelease : List Char
  build : List Char
deriving DecidableEq

/-- `parseInt` of the semver package: a nonempty digit run without leading
zeros, returned with the rest of the input. -/
def parseIntSv : List Char → Option (List Char × List Char)
  | [] => none
  | c :: cs =>
    if isDigitChar c = false then none
    else if c = '0' ∧ (c :: (spanDigits cs).1).length ≠ 1 then none
    else some (c :: (spanDigits cs).1, (spanDigits cs).2)

/-- identifier characters of semver prerelease/build segments. -/
def isIdentCharSv (c : Char) : Bool :=
  ('A' ≤ c && c ≤ 'Z') || ('a' ≤ c && c ≤ 'z') || isDigitChar c || c = '-'

/-- `isBadNum`: an all-digit identifier with a leading zero. -/
def isBadNum (v : List Char) : Bool :=
  v.all isDigitChar && decide (1 < v.length) && v.headD 'x' = '0'

/-- `isNum`: an all-digit identifier. -/
def isNumSv (v : List Char) : Bool := v.all isDigitChar

/-- `parsePrerelease`: `-` followed by nonempty dot-separated identifiers
(numeric ones without leading zeros), up to a `+` or the end. -/
def parsePrereleaseSv (v : List Char) : Option (List Char × List Char) :=
  match v with
  | '-' :: rest =>
    let body := rest.takeWhile (fun c => c ≠ '+')
    if body.all (fun c => isIdentCharSv c || c = '.') &&
        (splitSep '.' body).all (fun seg => decide (seg ≠ []) && !isBadNum seg) then
      some ('-' :: body, rest.drop body.length)
    else none
  | _ => none

/-- `parseBuild`: `+` followed by nonempty dot-separated identifiers. -/
def parseBuildSv (v : List Char) : Option (List Char × List Char) :=
  match v with
  | '+' :: rest =>
    if rest.all (fun c => isIdentCharSv c || c = '.') &&
        (splitSep '.' rest).all (fun seg => decide (seg ≠ [])) then
      some ('+' :: rest, [])
    else none
  | _ => none

/-- After major/minor/patch: optional prerelease, optional build, then the
input must be exhausted. -/
def parseSvTail (maj mino pat r5 : List Char) : Option SemverParsed :=
  let afterPre : Option (List Char × List Char) :=
    match r5 with
    | '-' :: _ =>
      match parsePrereleaseSv r5 with
      | none => none
      | some (pre, r6) => some (pre, r6)
    | _ => some ([], r5)
  match afterPre with
  | none => none
  | some (pre, r6) =>
    match r6 with
    | [] => some ⟨maj, mino, pat, pre, []⟩
    | '+' :: _ =>
      match parseBuildSv r6 with
      | none => none
      | some (bld, r7) =>
        if r7 = [] then some ⟨maj, mino, pat, pre, bld⟩ else none
    | _ => none

/-- `semver.parse`: missing minor or patch components default to `0`. -/
def parseSv (v : List Char) : Option SemverParsed :=
  match v with
  | 'v' :: r0 =>
    match parseIntSv r0 with
    | none => none
    | some (maj, r1) =>
      match r1 with
      | [] => some ⟨maj, ['0'], ['0'], [], []⟩
      | '.' :: r2 =>
        match parseIntSv r2 with
        | none => none
        | some (mino, r3) =>
          match r3 with
          | [] => some ⟨maj, mino, ['0'], [], []⟩
          | '.' :: r4 =>
            match parseIntSv r4 with
            | none => none
            | some (pat, r5) => parseSvTail maj mino pat r5
          | _ => none
      | _ => none
  | _ => none

/-- Bytewise lexicographic `<` on strings (Go's `<` on `string`). -/
def lexLt : List Char → List Char → Bool
  | [], [] => false
  | [], _ :: _ => true
  | _ :: _, [] => false
  | a :: as, b :: bs => if a = b then lexLt as bs else decide (a < b)

/-- `compareInt`: decimal numerals without leading zeros compare by length
then lexicographically. -/
def compareIntSv (x y : List Char) : Int :=
  if x = y then 0
  else if x.length < y.length then -1
  else if y.length < x.length then 1
  else if lexLt x y then -1 else 1

/-- One identifier of a prerelease (up to the next `.`) and the rest. -/
def nextIdentSv (x : List Char) : List Char × List Char :=
  (x.takeWhile (fun c => c ≠ '.'), x.dropWhile (fun c => c ≠ '.'))

/-- The identifier-by-identifier loop of `comparePrerelease`; fuel bounds
the number of iterations. -/
def comparePrereleaseLoop : Nat → List Char → List Char → Int
  | 0, _, _ => 0
  | f + 1, x, y =>
    if x ≠ [] ∧ y ≠ [] then
      let dx := (nextIdentSv x.tail).1
      let x1 := (nextIdentSv x.tail).2
      let dy := (nextIdentSv y.tail).1
      let y1 := (nextIdentSv y.tail).2
      if dx ≠ dy then
        if isNumSv dx ≠ isNumSv dy then (if isNumSv dx then -1 else 1)
        else if isNumSv dx ∧ dx.length < dy.length then -1
        else if isNumSv dx ∧ dy.length < dx.length then 1
        else if lexLt dx dy then -1 else 1
      else comparePrereleaseLoop f x1 y1
    else if x = [] then -1 else 1

/-- `comparePrerelease`: the empty prerelease (a release version) is
greatest; otherwise identifiers compare pointwise, numeric before
alphanumeric, with the shorter list smaller. -/
def comparePrereleaseSv (x y : List Char) : Int :=
  if x = y then 0
  else if x = [] then 1
  else if y = [] then -1
  else comparePrereleaseLoop (x.length + 1) x y

/-- `semver.Compare`. -/
def semverCompare (v w : List Char) : Int :=
  match parseSv v, parseSv w with
  | none, none => 0
  | none, some _ => -1
  | some _, none => 1
  | some pv, some pw =>
    let c1 := compareIntSv pv.major pw.major
    if c1 ≠ 0 then c1
    else
      let c2 := compareIntSv pv.minor pw.minor
      if c2 ≠ 0 then c2
      else
        let c3 := compareIntSv pv.patch pw.patch
        if c3 ≠ 0 then c3
        else comparePrereleaseSv pv.prerelease pw.prerelease

/-!
`releaseTagPattern = .*(go|ts)\/[-\w]*\/(v\d*\.\d*\.\d*)` used with
`MatchString`: since the leading `.*` may match the empty string, the
pattern matches somewhere in a tag iff at some position `go` or `ts` is
followed by `/`, a run of `[-\w]` characters, `/`, `v`, digits, `.`,
digits, `.` (the final `\d*` is vacuous).
-/

def tagMatchAt (s : List Char) : Bool :=
  match (match stripPrefixL ['g', 'o'] s with
         | some r => some r
         | none => stripPrefixL ['t', 's'] s) with
  | none => false
  | some r0 =>
    -- `[-\w]*` is greedy, and `/` is outside the class
    match r0 with
    | '/' :: r1 =>
      match r1.dropWhile isWordDash with
      | '/' :: 'v' :: r3 =>
        match spanDigits r3 with
        | (_, '.' :: r4) =>
          match spanDigits r4 with
          | (_, '.' :: _) => true
          | _ => false
        | _ => false
      | _ => false
    | _ => false

def tagPatternMatches : List Char → Bool
  | [] => false
  | c :: cs => tagMatchAt (c :: cs) || tagPatternMatches cs

/-!
`releaseBranchPattern = [-\w]*\/(v\d*\.\d*)` used with `MatchString`:
since `[-\w]*` may match the empty string, the pattern matches iff at some
position `/` is followed by `v`, digits, `.`.
-/

def branchMatchAt (s : List Char) : Bool :=
  match s with
  | '/' :: 'v' :: r =>
    match spanDigits r with
    | (_, '.' :: _) => true
    | _ => false
  | _ => false

def releaseBranchMatches : List Char → Bool
  | [] => false
  | c :: cs => branchMatchAt (c :: cs) || releaseBranchMatches cs

/-!
Version resolution: `readLatestPatchVersion` of the source.  Tags are the
already-newline-split output of `git tag` (the version-control collaborator
is external).  The Go code indexes `segments[len-1]` and `segments[len-3]`;
for tags that pass the filter the tag pattern guarantees at least three
segments, so the indexing never goes out of range there.
-/

/-- `segments[len(segments)-1]` for `segments := strings.Split(s, "/")`. -/
def lastSegment (s : List Char) : List Char :=
  let segs := splitSep '/' s
  segs.getD (segs.length - 1) []

/-- `segments[len(segments)-3]` (the language position of a release tag). -/
def langSegment (s : List Char) : List Char :=
  let segs := splitSep '/' s
  segs.getD (segs.length - 3) []

/-- The per-tag filter of the loop: the tag must contain
`<fn>/<minor>` as a substring and match `releaseTagPattern`. -/
def survivesTag (fn minor tag : List Char) : Bool :=
  containsL tag (fn ++ '/' :: minor) && tagPatternMatches tag

/-- The loop body accumulator update once a tag passed the filter:
replace the current best when there is none yet or the new patch version
is strictly greater under `semver.Compare`. -/
def updBest (acc : List Char × List Char) (tag : List Char) :
    List Char × List Char :=
  let patchVersion := lastSegment tag
  if acc.2 = [] ∨ semverCompare patchVersion acc.2 = 1 then
    (langSegment tag, patchVersion)
  else acc

/-- The tag loop of `readLatestPatchVersion`: accumulator is
`(lang, latestPatchVersion)`, both initially empty. -/
def readLatestLoop (fn minor : List Char) (tags : List (List Char)) :
    List Char × List Char :=
  tags.foldl
    (fun acc tag => if survivesTag fn minor tag = false then acc else updBest acc tag)
    ([], [])

/-- `readLatestPatchVersion`: errors when the identifiers are missing or
when no tag matched; otherwise yields `(language, latestPatchVersion)`. -/
def readLatestPatchVersion (fn minor : List Char) (tags : List (List Char)) :
    Except (List Char) (List Char × List Char) :=
  if fn = [] ∨ minor = [] then
    .error "missing function name and/or minor version".toList
  else
    let best := readLatestLoop fn minor tags
    if best.2 = [] ∨ best.1 = [] then
      .error "could not find matching tag for release branch".toList
    else .ok best

/-!
Branch parsing: the first half of `newFunctionRelease` (pattern check and
extraction of the last two `/`-separated segments).
-/

/-- The parse step of `newFunctionRelease`: `none` models the
`invalid branch format` error; otherwise `(FunctionName, MinorVersion)` is
`(segments[len-2], segments[len-1])`. -/
def newFunctionReleaseParse (branch : List Char) :
    Option (List Char × List Char) :=
  if releaseBranchMatches branch then
    let segments := splitSep '/' branch
    some (segments.getD (segments.length - 2) [],
      segments.getD (segments.length - 1) [])
  else none

/-!
The driver pipeline relevant to resolution failure (`main` →
`newFunctionRelease` → `readLatestPatchVersion` → `updateDocs`): path
discovery and metadata parsing are filesystem collaborators, abstracted as
the already-discovered example names and contrib flag; the documentation
files are a list of `(path, contents)` pairs.  Writes happen only after
every earlier step succeeded.
-/

def docWritesOf (e : Except (List Char) (List (List Char × List Char))) :
    List (List Char × List Char) :=
  match e with
  | .error _ => []
  | .ok l => l

def runUpdateModel (branch : List Char) (tags : List (List Char))
    (examples : List FunctionExample) (isContrib : Bool)
    (docs : List (List Char × List Char)) :
    Except (List Char) (List (List Char × List Char)) :=
  match newFunctionReleaseParse branch with
  | none => .error "invalid branch format".toList
  | some (fn, minor) =>
    match readLatestPatchVersion fn minor tags with
    | .error e => .error e
    | .ok (lang, patch) =>
      let fr : FunctionRelease :=
        ⟨fn, minor, lang, patch, [], examples, isContrib⟩
      .ok (docs.map (fun d => (d.1, updateDocContents fr d.2)))

/-!
Predicates used by the statements below.
-/

/-- The head of `r`, if any, falsifies `p` (a greedy `p*` stops here). -/
def headNotP (p : Char → Bool) : List Char → Prop
  | [] => True
  | c :: _ => p c = false

/-- Every successful match consumes at least one character. -/
def TryShrinks (tryM : List Char → Option (List Char × List Char)) : Prop :=
  ∀ s rep r, tryM s = some (rep, r) → r.length < s.length

/-- The shapes recognised by `unstable|v\d*\.\d*\.\d*|v\d*\.\d*`. -/
def IsVersionToken (t : List Char) : Prop :=
  t = unstableChars ∨
  (∃ a b, (∀ c ∈ a, isDigitChar c = true) ∧ (∀ c ∈ b, isDigitChar c = true) ∧
    t = 'v' :: a ++ '.' :: b) ∨
  (∃ a b c3, (∀ c ∈ a, isDigitChar c = true) ∧ (∀ c ∈ b, isDigitChar c = true) ∧
    (∀ c ∈ c3, isDigitChar c = true) ∧ t = 'v' :: a ++ '.' :: b ++ '.' :: c3)

/-- The text after the token neither starts with a digit nor with a dot,
so the greedy token match cannot extend into it. -/
def NotExtend : List Char → Prop
  | [] => True
  | c :: _ => isDigitChar c = false ∧ c ≠ '.'

/-- The numeric value of a decimal digit string. -/
def digitsVal : List Char → Nat
  | [] => 0
  | c :: cs => (c.toNat - 48) * 10 ^ cs.length + digitsVal cs

/-- The numeric (major, minor, patch) key of a patch version of the exact
form `v<digits>.<digits>.<digits>` (no leading zeros, nothing following),
read with the same `parseInt` as the semver model; `none` otherwise. -/
def patchTriple (s : List Char) : Option (Nat × Nat × Nat) :=
  match s with
  | 'v' :: r =>
    match parseIntSv r with
    | none => none
    | some (a, r1) =>
      match expectDot r1 with
      | none => none
      | some r2 =>
        match parseIntSv r2 with
        | none => none
        | some (b, r3) =>
          match expectDot r3 with
          | none => none
          | some r4 =>
            match parseIntSv r4 with
            | some (c, []) => some (digitsVal a, digitsVal b, digitsVal c)
            | _ => none
  | _ => none

/-- Numeric lexicographic strict order on major.minor.patch triples. -/
def tripleLt (x y : Nat × Nat × Nat) : Prop :=
  x.1 < y.1 ∨ (x.1 = y.1 ∧ (x.2.1 < y.2.1 ∨ (x.2.1 = y.2.1 ∧ x.2.2 < y.2.2)))

/-- The triple key of a patch-version string (junk maps to a default,
only used under a `patchTriple _ = some _` hypothesis). -/
def keyD (s : List Char) : Nat × Nat × Nat := (patchTriple s).getD (0, 0, 0)

/-- A canonical decimal numeral: nonempty, all digits, no leading zero. -/
def CanonNum (x : List Char) : Prop :=
  x ≠ [] ∧ (∀ c ∈ x, isDigitChar c = true) ∧
    (2 ≤ x.length → x.head? ≠ some '0')

/-- `w` is the first-seen maximum of the list under the numeric
major.minor.patch order of the trailing tag segments: everything before
it is strictly smaller, nothing after it is strictly greater. -/
def FirstMax (l : List (List Char)) (w : List Char) : Prop :=
  ∃ pre post, l = pre ++ w :: post ∧
    (∀ t ∈ pre, tripleLt (keyD (lastSegment t)) (keyD (lastSegment w))) ∧
    (∀ t ∈ post, ¬ tripleLt (keyD (lastSegment w)) (keyD (lastSegment t)))

/-- A `/v<digits>.` occurrence somewhere in the branch: exactly what the
unanchored `releaseBranchPattern` can match. -/
def BranchHasSlashV (s : List Char) : Prop :=
  ∃ x ds y, (∀ c ∈ ds, isDigitChar c = true) ∧
    s = x ++ '/' :: 'v' :: (ds ++ '.' :: y)

/-- Modelled from the spec: a whole segment of the form `v<MAJOR>.<MINOR>`
(the claimed suffix shape of a valid release branch). -/
def minorShape (t : List Char) : Bool :=
  match t with
  | 'v' :: r =>
    match expectDot (spanDigits r).2 with
    | none => false
    | some r1 =>
      decide ((spanDigits r).1 ≠ []) && decide (r1 ≠ []) && r1.all isDigitChar
  | _ => false

/-- A whole segment of the form `v<digits>.<digits>.<digits>` (digit runs
possibly empty, mirroring the `\d*` of the tag pattern). -/
def patchShape (t : List Char) : Bool :=
  match t with
  | 'v' :: r =>
    match expectDot (spanDigits r).2 with
    | none => false
    | some r1 =>
      match expectDot (spanDigits r1).2 with
      | none => false
      | some r2 => r2.all isDigitChar
  | _ => false

/-- Modelled from the spec: the claimed release-tag shape
`<prefix>/<language>/<function-name>/v<major>.<minor>.<patch>` with the
patch version as the trailing segment and the language (`go` or `ts`) at
the third-from-last segment. -/
def specReleaseTagShape (t : List Char) : Bool :=
  let segs := splitSep '/' t
  decide (4 ≤ segs.length) &&
  (decide (segs.getD (segs.length - 3) [] = ['g', 'o']) ||
   decide (segs.getD (segs.length - 3) [] = ['t', 's'])) &&
  patchShape (segs.getD (segs.length - 1) [])

/-- The function name of the spec's running example. -/
def applySettersName : List Char := "apply-setters".toList

/-- The resolved release of the spec's running example, with a chosen
latest patch version. -/
def applySettersRelease (patch : String) : FunctionRelease :=
  ⟨applySettersName, "v1.0".toList, "go".toList, patch.toList,
   "functions/go/apply-setters".toList,
   [⟨"examples/apply-setters-simple".toList, "apply-setters-simple".toList⟩],
   false⟩

/-! Basic lemmas about the string helpers. -/

theorem stripPrefixL_append (p r : List Char) :
    stripPrefixL p (p ++ r) = some r := by
  induction p with
  | nil => rfl
  | cons c cs ih => simp [stripPrefixL, ih]

theorem stripPrefixL_eq_some {p s r : List Char}
    (h : stripPrefixL p s = some r) : s = p ++ r := by
  induction p generalizing s with
  | nil => simp [stripPrefixL] at h; simp [h]
  | cons c cs ih =>
    cases s with
    | nil => simp [stripPrefixL] at h
    | cons d ds =>
      rw [stripPrefixL] at h
      split at h
      · next hc => rw [List.cons_append, hc, ih h]
      · exact absurd h (by simp)

theorem headNotP_cons {p : Char → Bool} {c : Char} {t : List Char}
    (h : p c = false) : headNotP p (c :: t) := h

theorem takeWhile_append_all {p : Char → Bool} {a r : List Char}
    (ha : ∀ c ∈ a, p c = true) (hr : headNotP p r) :
    (a ++ r).takeWhile p = a := by
  induction a with
  | nil =>
    cases r with
    | nil => rfl
    | cons c cs =>
      have hc : p c = false := hr
      simp [List.takeWhile_cons, hc]
  | cons c cs ih =>
    have hc : p c = true := ha c (by simp)
    simp [List.takeWhile_cons, hc, ih (fun x hx => ha x (by simp [hx]))]

theorem dropWhile_append_all {p : Char → Bool} {a r : List Char}
    (ha : ∀ c ∈ a, p c = true) (hr : headNotP p r) :
    (a ++ r).dropWhile p = r := by
  induction a with
  | nil =>
    cases r with
    | nil => rfl
    | cons c cs =>
      have hc : p c = false := hr
      simp [List.dropWhile_cons, hc]
  | cons c cs ih =>
    have hc : p c = true := ha c (by simp)
    simp [List.dropWhile_cons, hc, ih (fun x hx => ha x (by simp [hx]))]

theorem spanDigits_append {a r : List Char}
    (ha : ∀ c ∈ a, isDigitChar c = true) (hr : headNotP isDigitChar r) :
    spanDigits (a ++ r) = (a, r) := by
  rw [spanDigits, takeWhile_append_all ha hr, dropWhile_append_all ha hr]

theorem takeWhile_all {p : Char → Bool} {a : List Char}
    (ha : ∀ c ∈ a, p c = true) : a.takeWhile p = a := by
  simpa using takeWhile_append_all ha (r := []) trivial

theorem dropWhile_all {p : Char → Bool} {a : List Char}
    (ha : ∀ c ∈ a, p c = true) : a.dropWhile p = [] := by
  simpa using dropWhile_append_all ha (r := []) trivial

theorem expectDot_eq_some {s r : List Char} (h : expectDot s = some r) :
    s = '.' :: r := by
  unfold expectDot at h
  split at h
  · rename_i r'
    injection h with h
    rw [h]
  · simp at h

theorem expectDot_dot (r : List Char) : expectDot ('.' :: r) = some r := rfl

theorem expectDot_cons_ne {c : Char} (t : List Char) (hc : c ≠ '.') :
    expectDot (c :: t) = none := by
  unfold expectDot
  split
  · rename_i r' heq
    injection heq with h1 _
    exact absurd h1 hc
  · rfl

/-! Lemmas about the generic `ReplaceAll` scanner. -/

theorem scanReplaceAux_fuel {tryM} (hT : TryShrinks tryM) :
    ∀ f1 f2 s, s.length ≤ f1 → s.length ≤ f2 →
      scanReplaceAux tryM f1 s = scanReplaceAux tryM f2 s := by
  intro f1
  induction f1 with
  | zero =>
    intro f2 s h1 _
    have hs : s = [] := by cases s with
      | nil => rfl
      | cons c cs => simp at h1
    subst hs; simp [scanReplaceAux]
  | succ f ih =>
    intro f2 s h1 h2
    cases s with
    | nil => simp [scanReplaceAux]
    | cons c cs =>
      cases f2 with
      | zero => simp at h2
      | succ g =>
        rw [scanReplaceAux, scanReplaceAux]
        cases hm : tryM (c :: cs) with
        | none =>
          simp only [List.length_cons] at h1 h2
          exact congrArg (c :: ·) (ih g cs (by omega) (by omega))
        | some pr =>
          obtain ⟨rep, r⟩ := pr
          have hr := hT _ _ _ hm
          simp only [List.length_cons] at h1 h2 hr
          exact congrArg (rep ++ ·) (ih g r (by omega) (by omega))

theorem scanReplace_nil (tryM) : scanReplace tryM [] = [] := rfl

theorem scanReplace_match {tryM} (hT : TryShrinks tryM) {s rep r : List Char}
    (hm : tryM s = some (rep, r)) :
    scanReplace tryM s = rep ++ scanReplace tryM r := by
  have hr := hT _ _ _ hm
  cases s with
  | nil => simp at hr
  | cons c cs =>
    rw [scanReplace, List.length_cons, scanReplaceAux, hm]
    simp only [List.length_cons] at hr
    exact congrArg (rep ++ ·)
      (scanReplaceAux_fuel hT cs.length r.length r (by omega) (by omega))

theorem scanReplace_skip {tryM} {c : Char} {cs : List Char}
    (hm : tryM (c :: cs) = none) :
    scanReplace tryM (c :: cs) = c :: scanReplace tryM cs := by
  rw [scanReplace, List.length_cons, scanReplaceAux, hm, scanReplace]

theorem scanReplace_of_all {tryM} {P : Char → Bool}
    (hnone : ∀ s, (∀ c ∈ s, P c = true) → tryM s = none) :
    ∀ s, (∀ c ∈ s, P c = true) → scanReplace tryM s = s := by
  intro s
  induction s with
  | nil => intro _; rfl
  | cons c cs ih =>
    intro hall
    rw [scanReplace_skip (hnone _ hall), ih (fun x hx => hall x (by simp [hx]))]

/-! Lemmas about the version-token matcher. -/

theorem notExtend_headNot {r : List Char} (hr : NotExtend r) :
    headNotP isDigitChar r := by
  cases r with
  | nil => trivial
  | cons c cs => exact hr.1

theorem matchVersionToken_unstable (r : List Char) :
    matchVersionToken (unstableChars ++ r) = some r := by
  rw [matchVersionToken, stripPrefixL_append]

theorem matchVersionToken_v3 {a b c3 : List Char} (r : List Char)
    (ha : ∀ c ∈ a, isDigitChar c = true) (hb : ∀ c ∈ b, isDigitChar c = true)
    (hc : ∀ c ∈ c3, isDigitChar c = true) (hr : NotExtend r) :
    matchVersionToken ('v' :: (a ++ '.' :: (b ++ '.' :: (c3 ++ r)))) = some r := by
  have h1 : stripPrefixL unstableChars
      ('v' :: (a ++ '.' :: (b ++ '.' :: (c3 ++ r)))) = none := rfl
  have hs1 : spanDigits (a ++ '.' :: (b ++ '.' :: (c3 ++ r)))
      = (a, '.' :: (b ++ '.' :: (c3 ++ r))) :=
    spanDigits_append ha (headNotP_cons (by decide))
  have hs2 : spanDigits (b ++ '.' :: (c3 ++ r)) = (b, '.' :: (c3 ++ r)) :=
    spanDigits_append hb (headNotP_cons (by decide))
  have hs3 : spanDigits (c3 ++ r) = (c3, r) :=
    spanDigits_append hc (notExtend_headNot hr)
  simp only [matchVersionToken, h1, matchV3, hs1, expectDot_dot, hs2, hs3]

theorem matchVersionToken_v2 {a b : List Char} (r : List Char)
    (ha : ∀ c ∈ a, isDigitChar c = true) (hb : ∀ c ∈ b, isDigitChar c = true)
    (hr : NotExtend r) :
    matchVersionToken ('v' :: (a ++ '.' :: (b ++ r))) = some r := by
  have h1 : stripPrefixL unstableChars ('v' :: (a ++ '.' :: (b ++ r)))
      = none := rfl
  have hs1 : spanDigits (a ++ '.' :: (b ++ r)) = (a, '.' :: (b ++ r)) :=
    spanDigits_append ha (headNotP_cons (by decide))
  have hs2 : spanDigits (b ++ r) = (b, r) :=
    spanDigits_append hb (notExtend_headNot hr)
  have h2 : expectDot r = none := by
    cases r with
    | nil => rfl
    | cons c cs => exact expectDot_cons_ne cs hr.2
  simp only [matchVersionToken, h1, matchV3, hs1, expectDot_dot, hs2, h2, matchV2]

theorem matchVersionToken_exact {t : List Char} (r : List Char)
    (ht : IsVersionToken t) (hr : NotExtend r) :
    matchVersionToken (t ++ r) = some r := by
  rcases ht with h | ⟨a, b, ha, hb, h⟩ | ⟨a, b, c3, ha, hb, hc, h⟩
  · rw [h]; exact matchVersionToken_unstable r
  · rw [h]
    have := matchVersionToken_v2 r ha hb hr
    simpa [List.append_assoc] using this
  · rw [h]
    have := matchVersionToken_v3 r ha hb hc hr
    simpa [List.append_assoc] using this

theorem spanDigits_snd_length (s : List Char) :
    (spanDigits s).2.length ≤ s.length :=
  (List.dropWhile_sublist _).length_le

theorem matchV3_length {s r : List Char} (h : matchV3 s = some r) :
    r.length < s.length := by
  unfold matchV3 at h
  split at h
  · rename_i r0
    cases h1 : expectDot (spanDigits r0).2 with
    | none => simp [h1] at h
    | some r1 =>
      simp only [h1] at h
      cases h2 : expectDot (spanDigits r1).2 with
      | none => simp [h2] at h
      | some r2 =>
        simp only [h2] at h
        injection h with h
        subst h
        have e1 := expectDot_eq_some h1
        have e2 := expectDot_eq_some h2
        have l1 := spanDigits_snd_length r0
        have l2 := spanDigits_snd_length r1
        have l3 := spanDigits_snd_length r2
        rw [e1] at l1
        rw [e2] at l2
        simp only [List.length_cons] at l1 l2 ⊢
        omega
  · simp at h

theorem matchV2_length {s r : List Char} (h : matchV2 s = some r) :
    r.length < s.length := by
  unfold matchV2 at h
  split at h
  · rename_i r0
    cases h1 : expectDot (spanDigits r0).2 with
    | none => simp [h1] at h
    | some r1 =>
      simp only [h1] at h
      injection h with h
      subst h
      have e1 := expectDot_eq_some h1
      have l1 := spanDigits_snd_length r0
      have l2 := spanDigits_snd_length r1
      rw [e1] at l1
      simp only [List.length_cons] at l1 ⊢
      omega
  · simp at h

theorem matchVersionToken_length {s r : List Char}
    (h : matchVersionToken s = some r) : r.length < s.length := by
  rw [matchVersionToken] at h
  cases hu : stripPrefixL unstableChars s with
  | some r' =>
    simp only [hu] at h
    injection h with h
    subst h
    have := stripPrefixL_eq_some hu
    rw [this, List.length_append]
    simp [unstableChars]
  | none =>
    simp only [hu] at h
    cases h3 : matchV3 s with
    | some r' =>
      simp only [h3] at h
      injection h with h
      subst h
      exact matchV3_length h3
    | none =>
      simp only [h3] at h
      exact matchV2_length h

theorem tryTagShrinks (fn patch : List Char) : TryShrinks (tryTagMatch fn patch) := by
  intro s rep r h
  unfold tryTagMatch at h
  split at h
  · simp at h
  · rename_i s1 hp
    split at h
    · rename_i sep s2
      split at h
      · split at h
        · rename_i r' hm
          injection h with h
          cases h
          have hlen := matchVersionToken_length hm
          rw [stripPrefixL_eq_some hp, List.length_append, List.length_cons]
          omega
        · simp at h
      · simp at h
    · simp at h

theorem tryURLShrinks (fn minor : List Char) : TryShrinks (tryURLMatch fn minor) := by
  intro s rep r h
  unfold tryURLMatch at h
  cases hp : stripPrefixL (catalogURL fn) s with
  | none => simp [hp] at h
  | some s1 =>
    simp only [hp] at h
    cases hm : matchVersionToken s1 with
    | none => simp [hm] at h
    | some r' =>
      simp only [hm] at h
      injection h with h
      cases h
      have hlen := matchVersionToken_length hm
      have hbase : 0 < (catalogURL fn).length := by
        rw [catalogURL]
        simp
      rw [stripPrefixL_eq_some hp, List.length_append]
      omega

theorem tryNameList_eq_some {names : List (List Char)} {s n r : List Char}
    (h : tryNameList names s = some (n, r)) :
    stripPrefixL n s = some r ∧ ∃ c t, r = c :: t ∧ isSpaceGo c = true := by
  induction names with
  | nil => simp [tryNameList] at h
  | cons m ms ih =>
    unfold tryNameList at h
    split at h
    · rename_i r' hp
      split at h
      · rename_i c t
        split at h
        · rename_i hsp
          injection h with h
          cases h
          exact ⟨hp, c, t, rfl, hsp⟩
        · exact ih h
      · exact ih h
    · exact ih h

theorem tryKptShrinks (names : List (List Char)) (fn patch : List Char)
    (isContrib : Bool) : TryShrinks (tryKptMatch names fn patch isContrib) := by
  intro s rep r h
  unfold tryKptMatch at h
  cases hp : stripPrefixL (kptPkgBase isContrib) s with
  | none => simp [hp] at h
  | some s1 =>
    simp only [hp] at h
    cases hn : tryNameList names s1 with
    | none => simp [hn] at h
    | some pr =>
      obtain ⟨n, r1⟩ := pr
      simp only [hn] at h
      injection h with h
      cases h
      obtain ⟨hstrip, c, t, hr1, hc⟩ := tryNameList_eq_some hn
      have hdrop : r1.dropWhile isSpaceGo = t.dropWhile isSpaceGo := by
        rw [hr1]
        simp [List.dropWhile_cons, hc]
      have hlt : (r1.dropWhile isSpaceGo).length < r1.length := by
        rw [hdrop, hr1, List.length_cons]
        have := (List.dropWhile_sublist (l := t) isSpaceGo).length_le
        omega
      have h1 : r1.length ≤ s1.length := by
        rw [stripPrefixL_eq_some hstrip, List.length_append]
        omega
      have hbase : 0 < (kptPkgBase isContrib).length := by
        cases isContrib <;> simp [kptPkgBase]
      rw [stripPrefixL_eq_some hp, List.length_append]
      omega

theorem tryTagMatch_head (fn patch t : List Char) (sep : Char) (r : List Char)
    (hsep : sep = ':' ∨ sep = '/') (ht : IsVersionToken t) (hr : NotExtend r) :
    tryTagMatch fn patch (fn ++ sep :: (t ++ r)) = some (fn ++ sep :: patch, r) := by
  simp only [tryTagMatch, stripPrefixL_append]
  rw [if_pos hsep, matchVersionToken_exact r ht hr]

theorem tryURLMatch_head (fn minor t r : List Char)
    (ht : IsVersionToken t) (hr : NotExtend r) :
    tryURLMatch fn minor (catalogURL fn ++ (t ++ r))
      = some (catalogURL fn ++ minor, r) := by
  simp only [tryURLMatch, stripPrefixL_append]
  rw [matchVersionToken_exact r ht hr]

/-- A whole single tag reference rewrites to the name, the original
separator, and the latest patch version. -/
theorem replaceTags_single (fr : FunctionRelease) (t : List Char) (sep : Char)
    (hsep : sep = ':' ∨ sep = '/') (ht : IsVersionToken t) :
    replaceTags fr (fr.FunctionName ++ sep :: t)
      = fr.FunctionName ++ sep :: fr.LatestPatchVersion := by
  rw [replaceTags]
  have h := tryTagMatch_head fr.FunctionName fr.LatestPatchVersion t sep []
    hsep ht trivial
  rw [List.append_nil] at h
  rw [scanReplace_match (tryTagShrinks _ _) h, scanReplace_nil, List.append_nil]

/-- A successful example-package match implies a whitespace character is
present in the scanned text (the `(\s+)` group). -/
theorem tryKptMatch_space {names : List (List Char)} {fn patch : List Char}
    {isContrib : Bool} {s : List Char} {p : List Char × List Char}
    (h : tryKptMatch names fn patch isContrib s = some p) :
    ∃ c, c ∈ s ∧ isSpaceGo c = true := by
  unfold tryKptMatch at h
  cases hp : stripPrefixL (kptPkgBase isContrib) s with
  | none => simp [hp] at h
  | some s1 =>
    simp only [hp] at h
    cases hn : tryNameList names s1 with
    | none => simp [hn] at h
    | some pr =>
      obtain ⟨n, r1⟩ := pr
      obtain ⟨hstrip, c, t, hr1, hc⟩ := tryNameList_eq_some hn
      refine ⟨c, ?_, hc⟩
      rw [stripPrefixL_eq_some hp, stripPrefixL_eq_some hstrip, hr1]
      simp

/-- Claim C5: the tag-reference rewrite replaces only the version token
after the function name and a `:` or `/` separator, keeping the name, the
separator and the surrounding text verbatim; both separators are exercised
in one content with two references. -/
theorem C5_tag_rewrite_preserves_separator (t1 t2 : List Char)
    (ht1 : IsVersionToken t1) (ht2 : IsVersionToken t2) :
    replaceTags (applySettersRelease "v1.0.3")
        (applySettersName ++ ':' :: (t1 ++ ',' :: ' ' ::
          (applySettersName ++ '/' :: t2)))
      = applySettersName ++ ':' :: ("v1.0.3".toList ++ ',' :: ' ' ::
          (applySettersName ++ '/' :: "v1.0.3".toList)) := by
  show scanReplace (tryTagMatch applySettersName ("v1.0.3".toList)) _ = _
  have hT := tryTagShrinks applySettersName ("v1.0.3".toList)
  have hne1 : NotExtend (',' :: ' ' :: (applySettersName ++ '/' :: t2)) :=
    ⟨by decide, by decide⟩
  have hm1 := tryTagMatch_head applySettersName ("v1.0.3".toList) t1 ':'
    (',' :: ' ' :: (applySettersName ++ '/' :: t2)) (Or.inl rfl) ht1 hne1
  have hm2 := tryTagMatch_head applySettersName ("v1.0.3".toList) t2 '/' []
    (Or.inr rfl) ht2 trivial
  rw [List.append_nil] at hm2
  have hskip1 : tryTagMatch applySettersName ("v1.0.3".toList)
      (',' :: ' ' :: (applySettersName ++ '/' :: t2)) = none := rfl
  have hskip2 : tryTagMatch applySettersName ("v1.0.3".toList)
      (' ' :: (applySettersName ++ '/' :: t2)) = none := rfl
  rw [scanReplace_match hT hm1, scanReplace_skip hskip1, scanReplace_skip hskip2,
    scanReplace_match hT hm2, scanReplace_nil, List.append_nil]
  simp [List.cons_append, List.append_assoc]

/-- Claim C6: the catalog-URL rewrite replaces the version token after
`https://catalog.kpt.dev/<fn>/` with the release's minor version (not the
latest patch version, which is `v1.0.5` here); in particular
`.../apply-setters/v1.0.1` becomes `.../apply-setters/v1.0`. -/
theorem C6_catalog_url_keeps_minor :
    (∀ t : List Char, IsVersionToken t →
      replaceURLs (applySettersRelease "v1.0.5") (catalogURL applySettersName ++ t)
        = catalogURL applySettersName ++ "v1.0".toList) ∧
    replaceURLs (applySettersRelease "v1.0.5")
        "https://catalog.kpt.dev/apply-setters/v1.0.1".toList
      = "https://catalog.kpt.dev/apply-setters/v1.0".toList := by
  constructor
  · intro t ht
    show scanReplace (tryURLMatch applySettersName ("v1.0".toList)) _ = _
    have h := tryURLMatch_head applySettersName ("v1.0".toList) t [] ht trivial
    rw [List.append_nil] at h
    rw [scanReplace_match (tryURLShrinks _ _) h, scanReplace_nil, List.append_nil]
  · decide

/-- Claim C8 (counterexample): the tag-reference rewrite is not idempotent
on every content: with latest patch `v1.0.1`, the content
`apply-setters:unstable25` rewrites once to `apply-setters:v1.0.125`
(the replacement merges with the trailing digits) and a second application
rewrites that to `apply-setters:v1.0.1`. -/
theorem C8_counterexample :
    replaceTags (applySettersRelease "v1.0.1")
        (replaceTags (applySettersRelease "v1.0.1")
          "apply-setters:unstable25".toList)
      ≠ replaceTags (applySettersRelease "v1.0.1")
          "apply-setters:unstable25".toList := by
  decide

/-- Claim C8 (amended): the tag rewrite is idempotent on contents that are
a single tag reference (function name, separator, version token, end of
content) — in particular rewriting `apply-setters:v1.0.1` with latest
patch `v1.0.1` leaves it unchanged; idempotence can fail when a replaced
token is directly followed by digits, which merge into a longer token. -/
theorem C8_amended_idempotent_single_reference (t : List Char) (sep : Char)
    (hsep : sep = ':' ∨ sep = '/') (ht : IsVersionToken t) :
    replaceTags (applySettersRelease "v1.0.1")
        (replaceTags (applySettersRelease "v1.0.1") (applySettersName ++ sep :: t))
      = replaceTags (applySettersRelease "v1.0.1") (applySettersName ++ sep :: t) := by
  have hpatch : IsVersionToken ("v1.0.1".toList) :=
    Or.inr (Or.inr ⟨['1'], ['0'], ['1'], by decide, by decide, by decide, by decide⟩)
  have h1 := replaceTags_single (applySettersRelease "v1.0.1") t sep hsep ht
  have h2 := replaceTags_single (applySettersRelease "v1.0.1") ("v1.0.1".toList)
    sep hsep hpatch
  show replaceTags (applySettersRelease "v1.0.1")
      (replaceTags (applySettersRelease "v1.0.1")
        ((applySettersRelease "v1.0.1").FunctionName ++ sep :: t))
    = replaceTags (applySettersRelease "v1.0.1")
        ((applySettersRelease "v1.0.1").FunctionName ++ sep :: t)
  rw [h1]
  exact h2

/-- Claim C10: the example-package rewrite requires at least one
whitespace character after the example name: whitespace-free contents are
left unchanged, and in particular a package URL at the very end of the
content (no trailing whitespace) gets no pinned suffix. -/
theorem C10_no_trailing_whitespace_no_pin :
    (∀ contents : List Char, (∀ c ∈ contents, isSpaceGo c = false) →
      replaceKptPackages (applySettersRelease "v1.0.1") contents = contents) ∧
    replaceKptPackages (applySettersRelease "v1.0.1")
        "kpt pkg get https://github.com/GoogleContainerTools/kpt-functions-catalog.git/examples/apply-setters-simple".toList
      = "kpt pkg get https://github.com/GoogleContainerTools/kpt-functions-catalog.git/examples/apply-setters-simple".toList := by
  constructor
  · intro contents hall
    show scanReplace (tryKptMatch ["apply-setters-simple".toList]
      applySettersName ("v1.0.1".toList) false) contents = contents
    refine scanReplace_of_all (P := fun c => !isSpaceGo c) ?_ contents ?_
    · intro s hs
      cases h : tryKptMatch ["apply-setters-simple".toList] applySettersName
          ("v1.0.1".toList) false s with
      | none => rfl
      | some p =>
        obtain ⟨c, hcmem, hcsp⟩ := tryKptMatch_space h
        have hc := hs c hcmem
        simp [hcsp] at hc
    · intro c hc
      simp [hall c hc]
  · decide

/-- Claim C7: the example-package rewrite appends the pinned suffix
`@<fn>/<patch>` directly after the example name and before the trailing
whitespace, for any nonempty run of trailing whitespace; in particular the
spec's example line with a trailing newline. -/
theorem C7_example_pin_before_whitespace :
    (∀ ws : List Char, ws ≠ [] → (∀ c ∈ ws, isSpaceGo c = true) →
      replaceKptPackages (applySettersRelease "v1.0.1")
          (kptPkgBase false ++ ("apply-setters-simple".toList ++ ws))
        = kptPkgBase false ++ ("apply-setters-simple".toList ++ '@' ::
            (applySettersName ++ '/' :: ("v1.0.1".toList ++ ws)))) ∧
    replaceKptPackages (applySettersRelease "v1.0.1")
        "https://github.com/GoogleContainerTools/kpt-functions-catalog.git/examples/apply-setters-simple\n".toList
      = "https://github.com/GoogleContainerTools/kpt-functions-catalog.git/examples/apply-setters-simple@apply-setters/v1.0.1\n".toList := by
  constructor
  · intro ws hne hall
    obtain ⟨w, ws', rfl⟩ : ∃ w ws', ws = w :: ws' := by
      cases ws with
      | nil => exact absurd rfl hne
      | cons w ws' => exact ⟨w, ws', rfl⟩
    have hw : isSpaceGo w = true := hall w (by simp)
    show scanReplace (tryKptMatch ["apply-setters-simple".toList]
      applySettersName ("v1.0.1".toList) false) _ = _
    have hm : tryKptMatch ["apply-setters-simple".toList] applySettersName
        ("v1.0.1".toList) false
        (kptPkgBase false ++ ("apply-setters-simple".toList ++ w :: ws'))
        = some (kptPkgBase false ++ "apply-setters-simple".toList ++ '@' ::
            applySettersName ++ '/' :: "v1.0.1".toList ++ w :: ws', []) := by
      simp only [tryKptMatch, stripPrefixL_append, tryNameList]
      rw [if_pos hw]
      simp only [takeWhile_all hall, dropWhile_all hall]
    rw [scanReplace_match (tryKptShrinks _ _ _ _) hm, scanReplace_nil,
      List.append_nil]
    simp [List.cons_append, List.append_assoc]
  · decide

/-- Claim C2 (counterexample): the three substitution rules are not
order-independent: on `https://catalog.kpt.dev/apply-setters/v1.0`,
applying the catalog-URL rule before the tag rule yields a different
result than the fixed order (tags, URLs, packages). -/
theorem C2_counterexample :
    replaceKptPackages (applySettersRelease "v1.0.3")
        (replaceTags (applySettersRelease "v1.0.3")
          (replaceURLs (applySettersRelease "v1.0.3")
            "https://catalog.kpt.dev/apply-setters/v1.0".toList))
      ≠ updateDocContents (applySettersRelease "v1.0.3")
          "https://catalog.kpt.dev/apply-setters/v1.0".toList := by
  decide

/-- Claim C2 (amended): the order of the three rules matters.  The tag
pattern matches the `<fn>/<minor>` part inside a catalog URL, so the
URL rule's pattern does match text introduced by the tag rule: the fixed
order (tags, then URLs, then packages) leaves catalog URLs at the minor
version, while running the URL rule before the tag rule leaves them at
the patch version. -/
theorem C2_amended_fixed_order_matters :
    updateDocContents (applySettersRelease "v1.0.3")
        "https://catalog.kpt.dev/apply-setters/v1.0".toList
      = "https://catalog.kpt.dev/apply-setters/v1.0".toList ∧
    replaceTags (applySettersRelease "v1.0.3")
        (replaceURLs (applySettersRelease "v1.0.3")
          "https://catalog.kpt.dev/apply-setters/v1.0".toList)
      = "https://catalog.kpt.dev/apply-setters/v1.0.3".toList ∧
    ("https://catalog.kpt.dev/apply-setters/v1.0.3".toList : List Char)
      ≠ "https://catalog.kpt.dev/apply-setters/v1.0".toList := by
  exact ⟨by decide, by decide, by decide⟩

/-! Lemmas about `splitSep` and the branch pattern. -/

theorem splitSep_ne_nil (sep : Char) (s : List Char) : splitSep sep s ≠ [] := by
  induction s with
  | nil => simp [splitSep]
  | cons c cs ih =>
    rw [splitSep]
    split
    · simp
    · cases h : splitSep sep cs with
      | nil => simp
      | cons l ls => simp [h]

theorem splitSep_append (sep : Char) (a b : List Char) :
    splitSep sep (a ++ sep :: b) = splitSep sep a ++ splitSep sep b := by
  induction a with
  | nil => simp [splitSep]
  | cons c cs ih =>
    by_cases hc : c = sep
    · subst hc
      rw [List.cons_append, splitSep, if_pos rfl, ih, splitSep, if_pos rfl]
      rfl
    · rw [List.cons_append, splitSep, if_neg hc, ih, splitSep, if_neg hc]
      cases h : splitSep sep cs with
      | nil => exact absurd h (splitSep_ne_nil sep cs)
      | cons l ls => simp [h, List.cons_append]

theorem splitSep_no_sep {sep : Char} {s : List Char} (h : ∀ c ∈ s, c ≠ sep) :
    splitSep sep s = [s] := by
  induction s with
  | nil => rfl
  | cons c cs ih =>
    rw [splitSep, if_neg (h c (by simp)), ih (fun x hx => h x (by simp [hx]))]

theorem getD_append_two (l : List (List Char)) (x y : List Char) :
    (l ++ [x, y]).getD ((l ++ [x, y]).length - 2) [] = x ∧
    (l ++ [x, y]).getD ((l ++ [x, y]).length - 1) [] = y := by
  have hlen : (l ++ [x, y]).length = l.length + 2 := by simp
  have h2 : l.length + 2 - 2 = l.length := by omega
  have h1 : l.length + 2 - 1 = l.length + 1 := by omega
  constructor
  · rw [hlen, h2, List.getD_eq_getElem?_getD,
      List.getElem?_append_right (Nat.le_refl l.length)]
    simp
  · rw [hlen, h1, List.getD_eq_getElem?_getD,
      List.getElem?_append_right (by omega : l.length ≤ l.length + 1)]
    simp

theorem branchMatchAt_sound {s : List Char} (h : branchMatchAt s = true) :
    ∃ ds y, (∀ c ∈ ds, isDigitChar c = true) ∧
      s = '/' :: 'v' :: (ds ++ '.' :: y) := by
  unfold branchMatchAt at h
  split at h
  · rename_i r
    split at h
    · rename_i pr a r1 heq
      refine ⟨r.takeWhile isDigitChar, r1, ?_, ?_⟩
      · intro c hc
        exact List.mem_takeWhile_imp hc
      · have hr : r.takeWhile isDigitChar ++ r.dropWhile isDigitChar = r :=
          List.takeWhile_append_dropWhile isDigitChar r
        have hd : r.dropWhile isDigitChar = '.' :: r1 := by
          have h2 : (spanDigits r).2 = '.' :: r1 := by rw [heq]
          simpa [spanDigits] using h2
        rw [hd] at hr
        conv_lhs => rw [← hr]
    · exact absurd h (by simp)
  · exact absurd h (by simp)

theorem releaseBranchMatches_sound {s : List Char}
    (h : releaseBranchMatches s = true) : BranchHasSlashV s := by
  induction s with
  | nil => simp [releaseBranchMatches] at h
  | cons c cs ih =>
    rw [releaseBranchMatches, Bool.or_eq_true] at h
    cases h with
    | inl h =>
      obtain ⟨ds, y, hds, hs⟩ := branchMatchAt_sound h
      exact ⟨[], ds, y, hds, by rw [hs]; rfl⟩
    | inr h =>
      obtain ⟨x, ds, y, hds, hs⟩ := ih h
      exact ⟨c :: x, ds, y, hds, by rw [hs]; rfl⟩

theorem releaseBranchMatches_complete {s : List Char} (h : BranchHasSlashV s) :
    releaseBranchMatches s = true := by
  obtain ⟨x, ds, y, hds, hs⟩ := h
  subst hs
  induction x with
  | nil =>
    rw [List.nil_append, releaseBranchMatches, Bool.or_eq_true]
    left
    rw [branchMatchAt]
    have hsp : spanDigits (ds ++ '.' :: y) = (ds, '.' :: y) :=
      spanDigits_append hds (headNotP_cons (by decide))
    simp only [hsp]
  | cons c x ih =>
    rw [List.cons_append, releaseBranchMatches, Bool.or_eq_true]
    right
    exact ih

theorem releaseBranchMatches_iff (s : List Char) :
    releaseBranchMatches s = true ↔ BranchHasSlashV s :=
  ⟨releaseBranchMatches_sound, releaseBranchMatches_complete⟩

theorem isDigitChar_ne_slash {c : Char} (h : isDigitChar c = true) : c ≠ '/' := by
  intro he
  subst he
  simp [isDigitChar] at h

/-- Claim C4 (counterexample): the branch `a/v1.0/b` does not end in a
`v<MAJOR>.<MINOR>` segment, yet parsing does not fail: the unanchored
branch pattern matches `a/v1.0` in the middle, and the last two segments
are taken, yielding function name `v1.0` and minor version `b`. -/
theorem C4_counterexample :
    minorShape (lastSegment "a/v1.0/b".toList) = false ∧
    newFunctionReleaseParse "a/v1.0/b".toList
      = some ("v1.0".toList, "b".toList) := by
  decide

/-- Claim C4 (amended): for every branch `<prefix>/<fn>/v<MAJOR>.<MINOR>`
parsing yields function name `<fn>` and minor version `v<MAJOR>.<MINOR>`
(the last two path segments); and parsing fails exactly when the branch
contains no `/v<digits>.` occurrence anywhere (the pattern is unanchored:
the occurrence need not be a suffix, and no partial result is returned on
failure). -/
theorem C4_amended_branch_parsing (p fn ma mi : List Char)
    (hfn : ∀ c ∈ fn, c ≠ '/')
    (hma : ∀ c ∈ ma, isDigitChar c = true)
    (hmi : ∀ c ∈ mi, isDigitChar c = true) :
    newFunctionReleaseParse (p ++ '/' :: (fn ++ '/' :: ('v' :: (ma ++ '.' :: mi))))
      = some (fn, 'v' :: (ma ++ '.' :: mi)) ∧
    (∀ s : List Char, newFunctionReleaseParse s = none ↔ ¬ BranchHasSlashV s) := by
  constructor
  · have hmatch : releaseBranchMatches
        (p ++ '/' :: (fn ++ '/' :: ('v' :: (ma ++ '.' :: mi)))) = true := by
      apply releaseBranchMatches_complete
      exact ⟨p ++ '/' :: fn, ma, mi, hma, by simp [List.append_assoc]⟩
    have hminor_free : ∀ c ∈ 'v' :: (ma ++ '.' :: mi), c ≠ '/' := by
      intro c hc
      rcases List.mem_cons.mp hc with h | hc2
      · subst h; decide
      · rcases List.mem_append.mp hc2 with h | hc3
        · exact isDigitChar_ne_slash (hma c h)
        · rcases List.mem_cons.mp hc3 with h | h
          · subst h; decide
          · exact isDigitChar_ne_slash (hmi c h)
    have hsplit : splitSep '/' (p ++ '/' :: (fn ++ '/' :: ('v' :: (ma ++ '.' :: mi))))
        = splitSep '/' p ++ [fn, 'v' :: (ma ++ '.' :: mi)] := by
      rw [splitSep_append, splitSep_append, splitSep_no_sep hfn,
        splitSep_no_sep hminor_free]
      simp
    rw [newFunctionReleaseParse, if_pos hmatch]
    rw [hsplit]
    have hg := getD_append_two (splitSep '/' p) fn ('v' :: (ma ++ '.' :: mi))
    simp only [hg.1, hg.2]
  · intro s
    rw [newFunctionReleaseParse]
    by_cases hm : releaseBranchMatches s = true
    · rw [if_pos hm]
      simp only [reduceCtorEq, false_iff, not_not]
      exact releaseBranchMatches_sound hm
    · rw [if_neg hm]
      simp only [true_iff]
      intro hb
      exact hm (releaseBranchMatches_complete hb)

/-- A fold with a per-element guard equals the fold over the filtered
list (the tag loop skips non-surviving tags). -/
theorem foldl_filter_guard {α : Type} (g : α → List Char → α)
    (p : List Char → Bool) :
    ∀ (l : List (List Char)) (acc : α),
      l.foldl (fun a t => if p t = false then a else g a t) acc
        = (l.filter p).foldl (fun a t => if p t = false then a else g a t) acc := by
  intro l
  induction l with
  | nil => intro acc; rfl
  | cons t ts ih =>
    intro acc
    by_cases hp : p t = true
    · simp [List.filter_cons, hp, ih]
    · have hp2 : p t = false := by simpa using hp
      simp [List.filter_cons, hp2, ih]

theorem readLatestLoop_filter (fn minor : List Char) (tags : List (List Char)) :
    readLatestLoop fn minor tags
      = readLatestLoop fn minor (tags.filter (survivesTag fn minor)) := by
  rw [readLatestLoop, readLatestLoop]
  exact foldl_filter_guard updBest (survivesTag fn minor) tags ([], [])

/-- Claim C3 (counterexample): the tag `go/a/v1.0.1/junk` does not have
the claimed release-tag shape (its trailing segment is not a patch
version and its third-from-last segment is not a language), yet for
function `a` and minor version `v1.0` it is not ignored: it resolves the
release with language `a` and patch version `junk`, because the tag
pattern is unanchored. -/
theorem C3_counterexample :
    specReleaseTagShape "go/a/v1.0.1/junk".toList = false ∧
    survivesTag "a".toList "v1.0".toList "go/a/v1.0.1/junk".toList = true ∧
    readLatestPatchVersion "a".toList "v1.0".toList ["go/a/v1.0.1/junk".toList]
      = .ok ("a".toList, "junk".toList) := by
  decide

/-- Claim C3 (amended): a tag is ignored by resolution iff it fails the
loop's filter — containing `<fn>/<minor>` as a substring and matching the
(unanchored) release-tag pattern: resolving over all tags equals
resolving over just the surviving tags, so filtered-out tags contribute
neither a patch version nor a language. -/
theorem C3_amended_filtered_tags_ignored (fn minor : List Char)
    (tags : List (List Char)) :
    readLatestPatchVersion fn minor tags
      = readLatestPatchVersion fn minor (tags.filter (survivesTag fn minor)) := by
  rw [readLatestPatchVersion, readLatestPatchVersion, readLatestLoop_filter]

/-- Claim C9: when no tag survives the function/minor-version filter,
resolution returns the no-matching-release error (never a guessed
version), and the pipeline performs no documentation write. -/
theorem C9_no_match_is_error (branch : List Char) (tags : List (List Char))
    (examples : List FunctionExample) (isContrib : Bool)
    (docs : List (List Char × List Char)) (fn minor : List Char)
    (hparse : newFunctionReleaseParse branch = some (fn, minor))
    (hfn : fn ≠ []) (hminor : minor ≠ [])
    (hnone : tags.filter (survivesTag fn minor) = []) :
    runUpdateModel branch tags examples isContrib docs
      = .error "could not find matching tag for release branch".toList ∧
    docWritesOf (runUpdateModel branch tags examples isContrib docs) = [] := by
  have hloop : readLatestLoop fn minor tags = ([], []) := by
    rw [readLatestLoop_filter, hnone]
    rfl
  have hres : readLatestPatchVersion fn minor tags
      = .error "could not find matching tag for release branch".toList := by
    rw [readLatestPatchVersion, if_neg (by simp [hfn, hminor])]
    simp [hloop]
  have hrun : runUpdateModel branch tags examples isContrib docs
      = .error "could not find matching tag for release branch".toList := by
    rw [runUpdateModel]
    simp only [hparse, hres]
  exact ⟨hrun, by rw [hrun]; rfl⟩

/-- Witness for C4: `origin/apply-setters/v1.0` parses to
(`apply-setters`, `v1.0`). -/
theorem C4_witness :
    newFunctionReleaseParse ("origin".toList ++ '/' ::
        ("apply-setters".toList ++ '/' :: ('v' :: (['1'] ++ '.' :: ['0']))))
      = some ("apply-setters".toList, 'v' :: (['1'] ++ '.' :: ['0'])) :=
  (C4_amended_branch_parsing "origin".toList "apply-setters".toList ['1'] ['0']
    (by decide) (by decide) (by decide)).1

/-- Witness for C5: the spec's examples `apply-setters:v1.0` and
`apply-setters/v1.0` rewritten with latest patch `v1.0.3`. -/
theorem C5_witness :
    IsVersionToken ("v1.0".toList) ∧
    replaceTags (applySettersRelease "v1.0.3")
        (applySettersName ++ ':' :: ("v1.0".toList ++ ',' :: ' ' ::
          (applySettersName ++ '/' :: "v1.0".toList)))
      = applySettersName ++ ':' :: ("v1.0.3".toList ++ ',' :: ' ' ::
          (applySettersName ++ '/' :: "v1.0.3".toList)) :=
  ⟨Or.inr (Or.inl ⟨['1'], ['0'], by decide, by decide, by decide⟩),
   C5_tag_rewrite_preserves_separator "v1.0".toList "v1.0".toList
     (Or.inr (Or.inl ⟨['1'], ['0'], by decide, by decide, by decide⟩))
     (Or.inr (Or.inl ⟨['1'], ['0'], by decide, by decide, by decide⟩))⟩

/-- Witness for C6: the catalog URL version token `v1.0.1` becomes the
minor version `v1.0`. -/
theorem C6_witness :
    replaceURLs (applySettersRelease "v1.0.5")
        (catalogURL applySettersName ++ "v1.0.1".toList)
      = catalogURL applySettersName ++ "v1.0".toList :=
  C6_catalog_url_keeps_minor.1 "v1.0.1".toList
    (Or.inr (Or.inr ⟨['1'], ['0'], ['1'], by decide, by decide, by decide,
      by decide⟩))

/-- Witness for C7: a single trailing newline. -/
theorem C7_witness :
    replaceKptPackages (applySettersRelease "v1.0.1")
        (kptPkgBase false ++ ("apply-setters-simple".toList ++ ['\n']))
      = kptPkgBase false ++ ("apply-setters-simple".toList ++ '@' ::
          (applySettersName ++ '/' :: ("v1.0.1".toList ++ ['\n']))) :=
  C7_example_pin_before_whitespace.1 ['\n'] (by decide) (by decide)

/-- Witness for C8: rewriting `apply-setters:v1.0.1` with latest patch
`v1.0.1` twice equals rewriting it once. -/
theorem C8_witness :
    replaceTags (applySettersRelease "v1.0.1")
        (replaceTags (applySettersRelease "v1.0.1")
          (applySettersName ++ ':' :: "v1.0.1".toList))
      = replaceTags (applySettersRelease "v1.0.1")
          (applySettersName ++ ':' :: "v1.0.1".toList) :=
  C8_amended_idempotent_single_reference "v1.0.1".toList ':' (Or.inl rfl)
    (Or.inr (Or.inr ⟨['1'], ['0'], ['1'], by decide, by decide, by decide,
      by decide⟩))

/-- Witness for C9: no tag mentions `fn/v2.0`, so the run errors out with
no writes. -/
theorem C9_witness :
    runUpdateModel "fn/v2.0".toList ["functions/go/fn/v1.0.1".toList] [] false
        [("README.md".toList, "fn:v1.0".toList)]
      = .error "could not find matching tag for release branch".toList ∧
    docWritesOf (runUpdateModel "fn/v2.0".toList
        ["functions/go/fn/v1.0.1".toList] [] false
        [("README.md".toList, "fn:v1.0".toList)]) = [] :=
  C9_no_match_is_error "fn/v2.0".toList ["functions/go/fn/v1.0.1".toList]
    [] false [("README.md".toList, "fn:v1.0".toList)]
    "fn".toList "v2.0".toList (by decide) (by decide) (by decide) (by decide)

/-- Witness for C10: the package URL at the very end of the content,
without trailing whitespace, is left unchanged. -/
theorem C10_witness :
    replaceKptPackages (applySettersRelease "v1.0.1")
        "https://github.com/GoogleContainerTools/kpt-functions-catalog.git/examples/apply-setters-simple".toList
      = "https://github.com/GoogleContainerTools/kpt-functions-catalog.git/examples/apply-setters-simple".toList :=
  C10_no_trailing_whitespace_no_pin.1
    "https://github.com/GoogleContainerTools/kpt-functions-catalog.git/examples/apply-setters-simple".toList
    (by decide)

/-! Numeric reading of canonical decimal numerals. -/

theorem isDigitChar_toNat {c : Char} (h : isDigitChar c = true) :
    48 ≤ c.toNat ∧ c.toNat ≤ 57 := by
  simp only [isDigitChar, Bool.and_eq_true, decide_eq_true_eq] at h
  exact h

theorem char_toNat_eq_48 {c : Char} (h : c.toNat = 48) : c = '0' :=
  Char.ext (UInt32.ext h)

theorem headNotP_dropWhile (p : Char → Bool) (l : List Char) :
    headNotP p (l.dropWhile p) := by
  induction l with
  | nil => trivial
  | cons c cs ih =>
    rw [List.dropWhile_cons]
    split
    · exact ih
    · rename_i hc
      simpa using hc

theorem parseIntSv_eq_some {s t r : List Char}
    (h : parseIntSv s = some (t, r)) :
    s = t ++ r ∧ CanonNum t ∧ headNotP isDigitChar r := by
  unfold parseIntSv at h
  split at h
  · simp at h
  · rename_i c cs
    split at h
    · simp at h
    · split at h
      · simp at h
      · rename_i hdig hzero
        injection h with h
        injection h with h1 h2
        have hdig2 : isDigitChar c = true := by simpa using hdig
        subst h1
        subst h2
        simp only [spanDigits]
        refine ⟨?_, ⟨by simp, ?_, ?_⟩, ?_⟩
        · rw [List.cons_append,
            List.takeWhile_append_dropWhile isDigitChar cs]
        · intro x hx
          rcases List.mem_cons.mp hx with hx | hx
          · subst hx; exact hdig2
          · exact List.mem_takeWhile_imp hx
        · intro hlen h0
          simp only [List.head?_cons, Option.some.injEq] at h0
          apply hzero
          simp only [spanDigits]
          refine ⟨h0, ?_⟩
          intro hone
          rw [hone] at hlen
          simp at hlen
        · exact headNotP_dropWhile isDigitChar cs

theorem digitsVal_lt (x : List Char) (hx : ∀ c ∈ x, isDigitChar c = true) :
    digitsVal x < 10 ^ x.length := by
  induction x with
  | nil => simp [digitsVal]
  | cons c cs ih =>
    rw [digitsVal, List.length_cons]
    have h9 : c.toNat - 48 ≤ 9 := by
      have := (isDigitChar_toNat (hx c (by simp))).2
      omega
    have ihh := ih (fun y hy => hx y (by simp [hy]))
    calc (c.toNat - 48) * 10 ^ cs.length + digitsVal cs
        ≤ 9 * 10 ^ cs.length + digitsVal cs :=
          Nat.add_le_add_right (Nat.mul_le_mul_right _ h9) _
      _ < 9 * 10 ^ cs.length + 10 ^ cs.length := Nat.add_lt_add_left ihh _
      _ = 10 ^ (cs.length + 1) := by rw [pow_succ]; ring

theorem digitsVal_head_lower {c : Char} (cs : List Char)
    (hc : isDigitChar c = true) (h0 : c ≠ '0') :
    10 ^ cs.length ≤ digitsVal (c :: cs) := by
  rw [digitsVal]
  have h48 := (isDigitChar_toNat hc).1
  have hne : c.toNat ≠ 48 := fun he => h0 (char_toNat_eq_48 he)
  have h1 : 1 ≤ c.toNat - 48 := by omega
  calc 10 ^ cs.length = 1 * 10 ^ cs.length := by ring
    _ ≤ (c.toNat - 48) * 10 ^ cs.length := Nat.mul_le_mul_right _ h1
    _ ≤ (c.toNat - 48) * 10 ^ cs.length + digitsVal cs := Nat.le_add_right _ _

theorem digitsVal_lt_of_len_lt {x y : List Char}
    (hx : CanonNum x) (hy : CanonNum y) (hlen : x.length < y.length) :
    digitsVal x < digitsVal y := by
  obtain ⟨hxne, hxd, _⟩ := hx
  obtain ⟨hyne, hyd, hy0⟩ := hy
  obtain ⟨d, ds, rfl⟩ : ∃ d ds, y = d :: ds := by
    cases y with
    | nil => exact absurd rfl hyne
    | cons d ds => exact ⟨d, ds, rfl⟩
  have hxlen : 1 ≤ x.length := by
    cases x with
    | nil => exact absurd rfl hxne
    | cons _ _ => simp
  have h2 : 2 ≤ (d :: ds).length := by
    simp only [List.length_cons] at hlen ⊢
    omega
  have hd0 : d ≠ '0' := by
    have := hy0 h2
    simpa using this
  have hlow := digitsVal_head_lower ds (hyd d (by simp)) hd0
  have hup := digitsVal_lt x hxd
  have hpow : 10 ^ x.length ≤ 10 ^ ds.length := by
    apply Nat.pow_le_pow_right (by omega)
    simp only [List.length_cons] at hlen
    omega
  omega

theorem digitsVal_lt_of_lexLt :
    ∀ {x y : List Char}, x.length = y.length →
      (∀ c ∈ x, isDigitChar c = true) → (∀ c ∈ y, isDigitChar c = true) →
      lexLt x y = true → digitsVal x < digitsVal y := by
  intro x
  induction x with
  | nil =>
    intro y hlen _ _ hlex
    cases y with
    | nil => simp [lexLt] at hlex
    | cons d ds => simp at hlen
  | cons c cs ih =>
    intro y hlen hx hy hlex
    cases y with
    | nil => simp at hlen
    | cons d ds =>
      rw [lexLt] at hlex
      simp only [List.length_cons] at hlen
      by_cases hcd : c = d
      · subst hcd
        rw [if_pos rfl] at hlex
        have := ih (by omega) (fun a ha => hx a (by simp [ha]))
          (fun a ha => hy a (by simp [ha])) hlex
        rw [digitsVal, digitsVal]
        have hlen2 : cs.length = ds.length := by omega
        rw [hlen2]
        omega
      · rw [if_neg hcd, decide_eq_true_eq] at hlex
        have hcd2 : c.toNat < d.toNat := hlex
        have hcn := isDigitChar_toNat (hx c (by simp))
        have hdn := isDigitChar_toNat (hy d (by simp))
        rw [digitsVal, digitsVal]
        have hlen2 : cs.length = ds.length := by omega
        rw [hlen2]
        have hvc := digitsVal_lt cs (fun a ha => hx a (by simp [ha]))
        have hstep : (c.toNat - 48) * 10 ^ ds.length + 10 ^ ds.length
            ≤ (d.toNat - 48) * 10 ^ ds.length := by
          have : c.toNat - 48 + 1 ≤ d.toNat - 48 := by omega
          calc (c.toNat - 48) * 10 ^ ds.length + 10 ^ ds.length
              = (c.toNat - 48 + 1) * 10 ^ ds.length := by ring
            _ ≤ (d.toNat - 48) * 10 ^ ds.length :=
                Nat.mul_le_mul_right _ this
        rw [hlen2] at hvc
        omega

theorem lexLt_total {x : List Char} :
    ∀ {y : List Char}, x.length = y.length → x ≠ y →
      lexLt x y = false → lexLt y x = true := by
  induction x with
  | nil =>
    intro y hlen hne _
    cases y with
    | nil => exact absurd rfl hne
    | cons d ds => simp at hlen
  | cons c cs ih =>
    intro y hlen hne hlex
    cases y with
    | nil => simp at hlen
    | cons d ds =>
      rw [lexLt] at hlex ⊢
      by_cases hcd : c = d
      · subst hcd
        rw [if_pos rfl] at hlex ⊢
        apply ih (by simpa using hlen) (by simpa using hne) hlex
      · rw [if_neg hcd] at hlex
        rw [if_neg (Ne.symm hcd), decide_eq_true_eq]
        rw [decide_eq_false_iff_not] at hlex
        rcases lt_or_gt_of_ne (hcd : c ≠ d) with h | h
        · exact absurd h hlex
        · exact h

theorem compareIntSv_cases (x y : List Char) :
    compareIntSv x y = -1 ∨ compareIntSv x y = 0 ∨ compareIntSv x y = 1 := by
  unfold compareIntSv
  split
  · simp
  · split
    · simp
    · split
      · simp
      · split <;> simp

theorem compareIntSv_spec {x y : List Char} (hx : CanonNum x) (hy : CanonNum y) :
    (compareIntSv x y = 1 ↔ digitsVal y < digitsVal x) ∧
    (compareIntSv x y = 0 ↔ digitsVal x = digitsVal y) := by
  unfold compareIntSv
  by_cases hxy : x = y
  · subst hxy
    simp
  · rw [if_neg hxy]
    by_cases hl1 : x.length < y.length
    · rw [if_pos hl1]
      have hv := digitsVal_lt_of_len_lt hx hy hl1
      constructor <;> constructor <;> intro h <;> omega
    · rw [if_neg hl1]
      by_cases hl2 : y.length < x.length
      · rw [if_pos hl2]
        have hv := digitsVal_lt_of_len_lt hy hx hl2
        constructor <;> constructor <;> intro h <;> omega
      · rw [if_neg hl2]
        have hlen : x.length = y.length := by omega
        by_cases hlex : lexLt x y = true
        · rw [if_pos hlex]
          have hv := digitsVal_lt_of_lexLt hlen hx.2.1 hy.2.1 hlex
          constructor <;> constructor <;> intro h <;> omega
        · rw [if_neg hlex]
          have hlex2 : lexLt y x = true :=
            lexLt_total hlen hxy (by simpa using hlex)
          have hv := digitsVal_lt_of_lexLt hlen.symm hy.2.1 hx.2.1 hlex2
          constructor <;> constructor <;> intro h <;> omega

theorem patchTriple_parseSv {s : List Char} {k : Nat × Nat × Nat}
    (h : patchTriple s = some k) :
    ∃ a b c, parseSv s = some ⟨a, b, c, [], []⟩ ∧
      CanonNum a ∧ CanonNum b ∧ CanonNum c ∧
      k = (digitsVal a, digitsVal b, digitsVal c) := by
  unfold patchTriple at h
  split at h
  · rename_i r
    cases hpa : parseIntSv r with
    | none => simp [hpa] at h
    | some pr1 =>
      obtain ⟨a, r1⟩ := pr1
      simp only [hpa] at h
      cases hd1 : expectDot r1 with
      | none => simp [hd1] at h
      | some r2 =>
        simp only [hd1] at h
        cases hpb : parseIntSv r2 with
        | none => simp [hpb] at h
        | some pr2 =>
          obtain ⟨b, r3⟩ := pr2
          simp only [hpb] at h
          cases hd2 : expectDot r3 with
          | none => simp [hd2] at h
          | some r4 =>
            simp only [hd2] at h
            cases hpc : parseIntSv r4 with
            | none => simp [hpc] at h
            | some pr3 =>
              obtain ⟨c, r5⟩ := pr3
              simp only [hpc] at h
              cases r5 with
              | cons e es =>
                have h2 : (none : Option (Nat × Nat × Nat)) = some k := h
                simp at h2
              | nil =>
                have h2 : some (digitsVal a, digitsVal b, digitsVal c)
                    = some k := h
                injection h2 with h2
                subst h2
                have e1 := expectDot_eq_some hd1
                have e2 := expectDot_eq_some hd2
                subst e1
                subst e2
                refine ⟨a, b, c, ?_, (parseIntSv_eq_some hpa).2.1,
                  (parseIntSv_eq_some hpb).2.1, (parseIntSv_eq_some hpc).2.1,
                  rfl⟩
                simp only [parseSv, hpa, hpb, hpc, parseSvTail]
  · simp at h

theorem int_chain_iff (c1 c2 c3 : Int) (A A' B B' C : Prop)
    (hA1 : c1 = 1 ↔ A) (hA0 : c1 = 0 ↔ A')
    (hB1 : c2 = 1 ↔ B) (hB0 : c2 = 0 ↔ B')
    (hC1 : c3 = 1 ↔ C) :
    ((if c1 ≠ 0 then c1 else if c2 ≠ 0 then c2 else if c3 ≠ 0 then c3 else 0)
        = 1 ↔ (A ∨ (A' ∧ (B ∨ (B' ∧ C))))) := by
  by_cases h1 : c1 = 0
  · rw [if_neg (not_not_intro h1)]
    have hA' : A' := hA0.mp h1
    have hnA : ¬ A := fun ha => by
      have := hA1.mpr ha
      omega
    by_cases h2 : c2 = 0
    · rw [if_neg (not_not_intro h2)]
      have hB' : B' := hB0.mp h2
      have hnB : ¬ B := fun hb => by
        have := hB1.mpr hb
        omega
      by_cases h3 : c3 = 0
      · rw [if_neg (not_not_intro h3)]
        have hnC : ¬ C := fun hc => by
          have := hC1.mpr hc
          omega
        constructor
        · intro h
          omega
        · intro h
          rcases h with h | ⟨_, h | ⟨_, h⟩⟩
          · exact absurd h hnA
          · exact absurd h hnB
          · exact absurd h hnC
      · rw [if_pos h3]
        rw [hC1]
        constructor
        · intro h
          exact Or.inr ⟨hA', Or.inr ⟨hB', h⟩⟩
        · intro h
          rcases h with h | ⟨_, h | ⟨_, h⟩⟩
          · exact absurd h hnA
          · exact absurd h hnB
          · exact h
    · rw [if_pos h2]
      rw [hB1]
      constructor
      · intro h
        exact Or.inr ⟨hA', Or.inl h⟩
      · intro h
        rcases h with h | ⟨_, h | ⟨hb', _⟩⟩
        · exact absurd h hnA
        · exact h
        · have := hB0.mpr hb'
          exact absurd this h2
  · rw [if_pos h1]
    rw [hA1]
    constructor
    · intro h
      exact Or.inl h
    · intro h
      rcases h with h | ⟨ha', _⟩
      · exact h
      · have := hA0.mpr ha'
        exact absurd this h1

theorem semverCompare_eq_one_iff {p q : List Char} {kp kq : Nat × Nat × Nat}
    (hp : patchTriple p = some kp) (hq : patchTriple q = some kq) :
    (semverCompare p q = 1 ↔ tripleLt kq kp) := by
  obtain ⟨a, b, c, hps, hca, hcb, hcc, hk⟩ := patchTriple_parseSv hp
  obtain ⟨a2, b2, c2, hqs, hca2, hcb2, hcc2, hk2⟩ := patchTriple_parseSv hq
  subst hk
  subst hk2
  have hA := compareIntSv_spec hca hca2
  have hB := compareIntSv_spec hcb hcb2
  have hC := compareIntSv_spec hcc hcc2
  have hgoal := int_chain_iff (compareIntSv a a2) (compareIntSv b b2)
    (compareIntSv c c2)
    (digitsVal a2 < digitsVal a) (digitsVal a2 = digitsVal a)
    (digitsVal b2 < digitsVal b) (digitsVal b2 = digitsVal b)
    (digitsVal c2 < digitsVal c)
    hA.1 (hA.2.trans eq_comm) hB.1 (hB.2.trans eq_comm) hC.1
  simp only [semverCompare, hps, hqs]
  rw [show comparePrereleaseSv [] [] = 0 from rfl]
  exact hgoal

theorem patchTriple_ne_nil {s : List Char} {k : Nat × Nat × Nat}
    (h : patchTriple s = some k) : s ≠ [] := by
  intro he
  subst he
  simp [patchTriple] at h

theorem tripleLt_trans {a b c : Nat × Nat × Nat}
    (h1 : tripleLt a b) (h2 : tripleLt b c) : tripleLt a c := by
  obtain ⟨a1, a2, a3⟩ := a
  obtain ⟨b1, b2, b3⟩ := b
  obtain ⟨c1, c2, c3⟩ := c
  simp only [tripleLt] at h1 h2 ⊢
  omega

theorem tripleLt_shift {w q t : Nat × Nat × Nat}
    (h1 : ¬ tripleLt w q) (h2 : tripleLt w t) : tripleLt q t := by
  obtain ⟨a1, a2, a3⟩ := w
  obtain ⟨b1, b2, b3⟩ := q
  obtain ⟨c1, c2, c3⟩ := t
  simp only [tripleLt] at h1 h2 ⊢
  omega

theorem foldl_guard_of_all {α : Type} (g : α → List Char → α)
    (p : List Char → Bool) :
    ∀ (l : List (List Char)), (∀ t ∈ l, p t = true) → ∀ (acc : α),
      l.foldl (fun a t => if p t = false then a else g a t) acc
        = l.foldl g acc := by
  intro l
  induction l with
  | nil => intro _ acc; rfl
  | cons t ts ih =>
    intro hl acc
    have hp : p t = true := hl t (by simp)
    simp only [List.foldl_cons, hp]
    rw [if_neg (by simp [hp])]
    exact ih (fun x hx => hl x (by simp [hx])) _

theorem foldl_updBest_firstMax :
    ∀ (l processed : List (List Char)) (w : List Char),
      (∀ t ∈ processed ++ l, ∃ k, patchTriple (lastSegment t) = some k) →
      FirstMax processed w →
      ∃ w2, FirstMax (processed ++ l) w2 ∧
        l.foldl updBest (langSegment w, lastSegment w)
          = (langSegment w2, lastSegment w2) := by
  intro l
  induction l with
  | nil =>
    intro processed w _ hfm
    exact ⟨w, by simpa using hfm, rfl⟩
  | cons t ts ih =>
    intro processed w hk hfm
    obtain ⟨pre, post, hdec, hpre, hpost⟩ := hfm
    have hwmem : w ∈ processed ++ t :: ts := by
      rw [hdec]
      simp
    obtain ⟨kw, hkw⟩ := hk w hwmem
    obtain ⟨kt, hkt⟩ := hk t (by simp)
    have hwne : lastSegment w ≠ [] := patchTriple_ne_nil hkw
    rw [List.foldl_cons]
    have hcmp := semverCompare_eq_one_iff hkt hkw
    have hk2 : ∀ x ∈ (processed ++ [t]) ++ ts,
        ∃ k, patchTriple (lastSegment x) = some k := by
      intro x hx
      apply hk
      simp only [List.append_assoc, List.singleton_append] at hx
      exact hx
    by_cases hgt : semverCompare (lastSegment t) (lastSegment w) = 1
    · have hstep : updBest (langSegment w, lastSegment w) t
          = (langSegment t, lastSegment t) := by
        simp only [updBest]
        rw [if_pos (Or.inr hgt)]
      rw [hstep]
      have hltwt : tripleLt (keyD (lastSegment w)) (keyD (lastSegment t)) := by
        have h2 := hcmp.mp hgt
        simpa [keyD, hkw, hkt] using h2
      have hfm2 : FirstMax (processed ++ [t]) t := by
        refine ⟨processed, [], by simp, ?_, by simp⟩
        intro x hx
        rw [hdec] at hx
        rcases List.mem_append.mp hx with hx | hx
        · exact tripleLt_trans (hpre x hx) hltwt
        · rcases List.mem_cons.mp hx with hx | hx
          · subst hx
            exact hltwt
          · exact tripleLt_shift (hpost x hx) hltwt
      obtain ⟨w2, hfm3, hfold⟩ := ih (processed ++ [t]) t hk2 hfm2
      refine ⟨w2, ?_, hfold⟩
      simpa [List.append_assoc] using hfm3
    · have hstep : updBest (langSegment w, lastSegment w) t
          = (langSegment w, lastSegment w) := by
        simp only [updBest]
        rw [if_neg (not_or.mpr ⟨hwne, hgt⟩)]
      rw [hstep]
      have hnlt : ¬ tripleLt (keyD (lastSegment w)) (keyD (lastSegment t)) := by
        intro hlt
        apply hgt
        apply hcmp.mpr
        simpa [keyD, hkw, hkt] using hlt
      have hfm2 : FirstMax (processed ++ [t]) w := by
        refine ⟨pre, post ++ [t], ?_, hpre, ?_⟩
        · rw [hdec]
          simp
        · intro x hx
          rcases List.mem_append.mp hx with hx | hx
          · exact hpost x hx
          · rw [List.mem_singleton.mp hx]
            exact hnlt
      obtain ⟨w2, hfm3, hfold⟩ := ih (processed ++ [t]) w hk2 hfm2
      refine ⟨w2, ?_, hfold⟩
      simpa [List.append_assoc] using hfm3

/-- Claim C1: among the tags surviving the function/minor-version filter
(whose trailing segments are well-formed patch versions), resolution
selects the patch version that is the semantic-version maximum under
numeric major.minor.patch ordering, keeping the first-seen tag on ties:
the resolved pair is the language and trailing segment of the first tag
whose numeric triple is maximal. -/
theorem C1_selects_first_semver_maximum (fn minor : List Char)
    (tags : List (List Char))
    (hfn : fn ≠ []) (hminor : minor ≠ [])
    (hne : tags.filter (survivesTag fn minor) ≠ [])
    (hkeys : ∀ t ∈ tags.filter (survivesTag fn minor),
      (patchTriple (lastSegment t)).isSome = true)
    (hlang : ∀ t ∈ tags.filter (survivesTag fn minor), langSegment t ≠ []) :
    ∃ w, FirstMax (tags.filter (survivesTag fn minor)) w ∧
      readLatestPatchVersion fn minor tags
        = .ok (langSegment w, lastSegment w) := by
  obtain ⟨h0, rest, hsurv⟩ : ∃ h0 rest,
      tags.filter (survivesTag fn minor) = h0 :: rest := by
    cases hs : tags.filter (survivesTag fn minor) with
    | nil => exact absurd hs hne
    | cons a b => exact ⟨a, b, rfl⟩
  have hloop : readLatestLoop fn minor tags
      = (tags.filter (survivesTag fn minor)).foldl updBest ([], []) := by
    rw [readLatestLoop_filter, readLatestLoop]
    apply foldl_guard_of_all
    intro t ht
    exact List.of_mem_filter ht
  rw [hsurv] at hloop
  have hstep0 : updBest ([], []) h0 = (langSegment h0, lastSegment h0) := by
    simp [updBest]
  have hks : ∀ x ∈ [h0] ++ rest, ∃ k, patchTriple (lastSegment x) = some k := by
    intro x hx
    apply Option.isSome_iff_exists.mp
    apply hkeys
    rw [hsurv]
    simpa using hx
  have hfm0 : FirstMax [h0] h0 := ⟨[], [], rfl, by simp, by simp⟩
  obtain ⟨w, hfm, hf⟩ := foldl_updBest_firstMax rest [h0] h0 hks hfm0
  have hfm2 : FirstMax (tags.filter (survivesTag fn minor)) w := by
    rw [hsurv]
    simpa using hfm
  have hwmem : w ∈ tags.filter (survivesTag fn minor) := by
    obtain ⟨pre, post, hdec, _, _⟩ := hfm2
    rw [hdec]
    simp
  obtain ⟨kww, hkww⟩ := Option.isSome_iff_exists.mp (hkeys w hwmem)
  have hwne : lastSegment w ≠ [] := patchTriple_ne_nil hkww
  have hlw : langSegment w ≠ [] := hlang w hwmem
  refine ⟨w, hfm2, ?_⟩
  have hbest : readLatestLoop fn minor tags = (langSegment w, lastSegment w) := by
    rw [hloop, List.foldl_cons, hstep0, hf]
  rw [readLatestPatchVersion, if_neg (by simp [hfn, hminor])]
  simp only [hbest]
  rw [if_neg (by simp [hwne, hlw])]

/-- Witness for C1: the spec's example tag set, where patch versions
`v1.0.1`, `v1.0.10`, `v1.0.2` are published and `v1.0.10` is the numeric
maximum (a naive string compare would pick `v1.0.2`). -/
theorem C1_witness :
    ("fn".toList : List Char) ≠ [] ∧
    ["functions/go/fn/v1.0.1".toList, "functions/go/fn/v1.0.10".toList,
      "functions/go/fn/v1.0.2".toList].filter
        (survivesTag "fn".toList "v1.0".toList) ≠ [] ∧
    ∃ w, FirstMax
        (["functions/go/fn/v1.0.1".toList, "functions/go/fn/v1.0.10".toList,
          "functions/go/fn/v1.0.2".toList].filter
            (survivesTag "fn".toList "v1.0".toList)) w ∧
      readLatestPatchVersion "fn".toList "v1.0".toList
          ["functions/go/fn/v1.0.1".toList, "functions/go/fn/v1.0.10".toList,
            "functions/go/fn/v1.0.2".toList]
        = .ok (langSegment w, lastSegment w) :=
  ⟨by decide, by decide,
   C1_selects_first_semver_maximum "fn".toList "v1.0".toList
     ["functions/go/fn/v1.0.1".toList, "functions/go/fn/v1.0.10".toList,
       "functions/go/fn/v1.0.2".toList]
     (by decide) (by decide) (by decide) (by decide) (by decide)⟩

/-- Sanity instance of the resolution loop on the spec's example: the
selected language/patch pair is `go`/`v1.0.10`. -/
theorem readLatest_example :
    readLatestPatchVersion "fn".toList "v1.0".toList
        ["functions/go/fn/v1.0.1".toList, "functions/go/fn/v1.0.10".toList,
          "functions/go/fn/v1.0.2".toList]
      = .ok ("go".toList, "v1.0.10".toList) := by
  decide
